import Mathlib

/-!
Verification development for the YouTube comment search service (app.py).

The Python source is shallowly embedded: pure fragments become Lean
functions, the Flask service plus background worker become an explicit
transition system over a `SysState`, and external effects (comment fetch,
SMTP send, raised exceptions) become explicit action parameters.
Python's Unicode-aware character classes (str.lower, regex word and digit
classes) are modelled by their ASCII restrictions.
-/

set_option linter.unusedVariables false

/-- ASCII model of Python str.lower, used as comment.get('text','').lower()
and phrase.lower() in get_filtered_comments (app.py lines 121-124). -/
def pyLower (s : String) : String := String.mk (s.toList.map Char.toLower)

/-- Boolean test that the second list starts with the first one. -/
def startsWithB : List Char → List Char → Bool
  | [], _ => true
  | _ :: _, [] => false
  | a :: as, b :: bs => a == b && startsWithB as bs

/-- Boolean test that n occurs contiguously inside the second list; model of
the Python "in" operator on strings. -/
def hasSubB (n : List Char) : List Char → Bool
  | [] => startsWithB n []
  | b :: bs => startsWithB n (b :: bs) || hasSubB n bs

/-- Python "needle in hay" on strings. -/
def pyIn (needle hay : String) : Bool := hasSubB needle.toList hay.toList

/-- Declarative contiguous-substring property (used on the spec side). -/
def SeqSub (n h : List Char) : Prop := ∃ pre post, h = pre ++ n ++ post

theorem startsWithB_iff (n h : List Char) :
    startsWithB n h = true ↔ ∃ t, h = n ++ t := by
  induction n generalizing h with
  | nil => simp [startsWithB]
  | cons a as ih =>
    cases h with
    | nil => simp [startsWithB]
    | cons b bs =>
      simp only [startsWithB, Bool.and_eq_true, beq_iff_eq, ih, List.cons_append,
        List.cons.injEq]
      constructor
      · rintro ⟨rfl, t, rfl⟩; exact ⟨t, rfl, rfl⟩
      · rintro ⟨t, rfl, rfl⟩; exact ⟨rfl, t, rfl⟩

theorem hasSubB_iff (n h : List Char) : hasSubB n h = true ↔ SeqSub n h := by
  unfold SeqSub
  induction h with
  | nil =>
    simp only [hasSubB, startsWithB_iff]
    constructor
    · rintro ⟨t, ht⟩
      exact ⟨[], t, by simpa using ht⟩
    · rintro ⟨pre, post, hp⟩
      have hpre : pre = [] := by
        cases pre with
        | nil => rfl
        | cons x xs => simp at hp
      subst hpre
      exact ⟨post, by simpa using hp⟩
  | cons b bs ih =>
    simp only [hasSubB, Bool.or_eq_true, startsWithB_iff, ih]
    constructor
    · rintro (⟨t, ht⟩ | ⟨pre, post, hp⟩)
      · exact ⟨[], t, by simpa using ht⟩
      · exact ⟨b :: pre, post, by simp [hp]⟩
    · rintro ⟨pre, post, hp⟩
      cases pre with
      | nil => exact Or.inl ⟨post, by simpa using hp⟩
      | cons x xs =>
        simp only [List.cons_append, List.cons.injEq] at hp
        exact Or.inr ⟨xs, post, hp.2⟩

theorem pyIn_iff (needle hay : String) :
    pyIn needle hay = true ↔ SeqSub needle.toList hay.toList := by
  unfold pyIn; exact hasSubB_iff _ _

/-- A single character occurs as a substring exactly when it is a member. -/
theorem hasSubB_singleton (c : Char) (h : List Char) :
    hasSubB [c] h = h.contains c := by
  have h1 : hasSubB [c] h = true ↔ c ∈ h := by
    rw [hasSubB_iff]
    unfold SeqSub
    constructor
    · rintro ⟨pre, post, rfl⟩
      simp
    · intro hm
      obtain ⟨s, t, rfl⟩ := List.append_of_mem hm
      exact ⟨s, t, by simp⟩
  have h2 : h.contains c = true ↔ c ∈ h := by
    simp [List.contains]
  cases hc : hasSubB [c] h with
  | true => rw [eq_comm, h2]; exact h1.mp hc
  | false =>
    cases hc2 : h.contains c with
    | true => exact absurd (h1.mpr (h2.mp hc2)) (by simp [hc])
    | false => rfl

/-! ## Timestamp extractor (app.py lines 81-101)

TIMESTAMP_PATTERN is the regex word-boundary, digit{1,2} ":" digit{2},
optionally another ":" digit{2}, word-boundary.  `findTSAux` renders
re.findall for this pattern: a left-to-right scan producing
non-overlapping matches, backtracking greedily exactly as the regex
engine does (two-digit lead before one-digit, the optional second colon
group taken when possible). -/

/-- ASCII model of the regex word-character class (letters, digits, underscore),
which defines the word boundaries in TIMESTAMP_PATTERN. -/
def isWordChar (c : Char) : Bool := c.isAlphanum || c == '_'

/-- Match one ":dd" unit at the head of the input. -/
def matchColonPair (r : List Char) : Option (List Char × List Char) :=
  match r with
  | c0 :: c1 :: c2 :: rest =>
    if c0 == ':' && c1.isDigit && c2.isDigit then some ([c0, c1, c2], rest) else none
  | _ => none

/-- Trailing word boundary: the remaining input is empty or starts with a
non-word character. -/
def boundaryHead : List Char → Bool
  | [] => true
  | c :: _ => !isWordChar c

/-- After the 1-2 digit lead, match ":dd", then greedily an optional second
":dd", and require the trailing word boundary, backtracking as the regex
engine does. -/
def matchFrom (lead rest : List Char) : Option (List Char × List Char) :=
  match matchColonPair rest with
  | none => none
  | some (p1, r1) =>
    match matchColonPair r1 with
    | some (p2, r2) =>
      if boundaryHead r2 then some (lead ++ p1 ++ p2, r2)
      else if boundaryHead r1 then some (lead ++ p1, r1)
      else none
    | none => if boundaryHead r1 then some (lead ++ p1, r1) else none

/-- Try to match TIMESTAMP_PATTERN at the head of l; the greedy 1-2 digit
lead takes two digits when the second character is also a digit. -/
def matchTSAt (l : List Char) : Option (List Char × List Char) :=
  match l with
  | a :: b :: rest =>
    if a.isDigit then
      if b.isDigit then matchFrom [a, b] rest
      else matchFrom [a] (b :: rest)
    else none
  | _ => none

/-- Fuel-indexed left-to-right scan of re.findall for TIMESTAMP_PATTERN.
prevWord records whether the previous character was a word character (the
leading word boundary holds exactly when it was not).  Each step consumes
at least one character, so fuel equal to the text length never runs out. -/
def findTSAux : Nat → Bool → List Char → List (List Char)
  | 0, _, _ => []
  | _ + 1, _, [] => []
  | fuel + 1, prevWord, c :: rest =>
    if !prevWord && c.isDigit then
      match matchTSAt (c :: rest) with
      | some (m, r) => m :: findTSAux fuel true r
      | none => findTSAux fuel (isWordChar c) rest
    else findTSAux fuel (isWordChar c) rest

/-- TIMESTAMP_PATTERN.findall(text) (app.py line 96). -/
def timestampFindall (text : List Char) : List (List Char) :=
  findTSAux text.length false text

/-- Model of int() on a run of ASCII digits. -/
def digitsToNat (l : List Char) : Nat := l.foldl (fun a c => a * 10 + (c.toNat - 48)) 0

/-- Model of str.split(":") at the character-list level. -/
def splitColon : List Char → List (List Char)
  | [] => [[]]
  | c :: rest =>
    match splitColon rest with
    | [] => [[]]
    | g :: gs => if c == ':' then [] :: g :: gs else (c :: g) :: gs

/-- _timestamp_to_seconds (app.py lines 84-90): split on ":", convert each
group with int(), and fold seconds = seconds * 60 + part. -/
def timestampToSeconds (ts : String) : Nat :=
  let parts := (splitColon ts.toList).map digitsToNat
  parts.foldl (fun seconds part => seconds * 60 + part) 0

/-- One element of the list built by extract_timestamps. -/
structure TsEntry where
  text : String
  seconds : Nat
  link : String
deriving DecidableEq

/-- extract_timestamps (app.py lines 93-101). -/
def extract_timestamps (text video_url : String) : List TsEntry :=
  (timestampFindall text.toList).map (fun m =>
    let ts := String.mk m
    let seconds := timestampToSeconds ts
    let delimiter := if pyIn "?" video_url then "&" else "?"
    { text := ts, seconds := seconds,
      link := video_url ++ delimiter ++ "t=" ++ toString seconds ++ "s" })

/-! ## Spec-side description of the timestamp extractor

The specification says: find every non-overlapping, word-bounded match of
H:MM:SS or MM:SS (1-2 digit leading group, exactly two digits later), scanned
left to right, taking at each start the longest such match; convert by
folding the colon groups base 60; link with "&" when the URL already has a
"?" and "?" otherwise.  These definitions follow those words and are compared
against the source-side definitions above. -/

/-- The shape H:MM:SS or MM:SS: a 1-2 digit leading group, then ":", two
digits, then optionally ":" and two digits. -/
def specShape : List Char → Bool
  | [m1, c1, s1, s2] =>
    m1.isDigit && c1 == ':' && s1.isDigit && s2.isDigit
  | [m1, m2, c1, s1, s2] =>
    m1.isDigit && m2.isDigit && c1 == ':' && s1.isDigit && s2.isDigit
  | [h1, c1, m1, m2, c2, s1, s2] =>
    h1.isDigit && c1 == ':' && m1.isDigit && m2.isDigit && c2 == ':' &&
      s1.isDigit && s2.isDigit
  | [h1, h2, c1, m1, m2, c2, s1, s2] =>
    h1.isDigit && h2.isDigit && c1 == ':' && m1.isDigit && m2.isDigit &&
      c2 == ':' && s1.isDigit && s2.isDigit
  | _ => false

/-- A word-bounded pattern match of length n starts at the head of l. -/
def candOk (l : List Char) (n : Nat) : Bool :=
  specShape (l.take n) && boundaryHead (l.drop n)

/-- The longest word-bounded pattern match at the head of l, if any
(possible match lengths are 8, 7, 5, 4). -/
def bestMatch (l : List Char) : Option (List Char × List Char) :=
  if candOk l 8 then some (l.take 8, l.drop 8)
  else if candOk l 7 then some (l.take 7, l.drop 7)
  else if candOk l 5 then some (l.take 5, l.drop 5)
  else if candOk l 4 then some (l.take 4, l.drop 4)
  else none

/-- Spec-side scan: move left to right; at every position preceded by a
non-word character (or the start), emit the longest word-bounded match
starting there, and continue right after it. -/
def specScanAux : Nat → Bool → List Char → List (List Char)
  | 0, _, _ => []
  | _ + 1, _, [] => []
  | fuel + 1, prevWord, c :: rest =>
    if prevWord then specScanAux fuel (isWordChar c) rest
    else
      match bestMatch (c :: rest) with
      | some (m, r) => m :: specScanAux fuel true r
      | none => specScanAux fuel (isWordChar c) rest

/-- Spec-side seconds: fold the colon-separated groups base 60, most
significant first. -/
def specSeconds (m : List Char) : Nat :=
  (splitColon m).foldl (fun acc g => 60 * acc + digitsToNat g) 0

/-- Spec-side extractor: one entry per match of the left-to-right scan, with
base-60 seconds and the separator chosen by whether the URL contains "?". -/
def extract_timestamps_spec (text video_url : String) : List TsEntry :=
  (specScanAux text.toList.length false text.toList).map (fun m =>
    let s := specSeconds m
    { text := String.mk m, seconds := s,
      link := if video_url.toList.contains '?' then
                video_url ++ "&t=" ++ toString s ++ "s"
              else video_url ++ "?t=" ++ toString s ++ "s" })

/-! ## Comment filter (app.py lines 104-142)

The external comment source is modelled by a `FetchResult`: either the
full ordered sequence of raw comment records, or an exception raised while
contacting the source, while iterating it, or while processing a record
inside the loop (in which case the records already yielded are carried for
the model but discarded, as the Python try block discards them). -/

/-- One raw comment record from the external source; optional fields model
dict.get defaults used in app.py lines 121-135. -/
structure Comment where
  text : Option String
  cid : Option String
  author : Option String
  time : Option String
  votes : Option Int
deriving DecidableEq

/-- One element of the list built by get_filtered_comments. -/
structure FilteredComment where
  text : String
  author : String
  time : String
  likes : Int
  link : String
  timestamps : List TsEntry
deriving DecidableEq

/-- Outcome of the external fetch/iteration: the full comment sequence, or
an exception somewhere in the try block of get_filtered_comments. -/
inductive FetchResult where
  | ok (comments : List Comment)
  | exn (yielded : List Comment)
deriving DecidableEq

/-- The retention test of app.py line 124: every phrase, lowercased, occurs
in the lowercased comment text (logical AND via all). -/
def commentMatches (phrases : List String) (c : Comment) : Bool :=
  phrases.all (fun phrase => pyIn (pyLower phrase) (pyLower (c.text.getD "")))

/-- The record built for a retained comment (app.py lines 125-136): the
direct link appends "&lc=<cid>" unconditionally when the cid is non-empty
and falls back to the bare video URL otherwise. -/
def renderComment (video_url : String) (c : Comment) : FilteredComment :=
  let comment_id := c.cid.getD ""
  let comment_link :=
    if comment_id ≠ "" then video_url ++ "&lc=" ++ comment_id else video_url
  { text := c.text.getD "",
    author := c.author.getD "Unknown",
    time := c.time.getD "Unknown",
    likes := c.votes.getD 0,
    link := comment_link,
    timestamps := extract_timestamps (c.text.getD "") video_url }

/-- The filtering loop of app.py lines 116-136, appending retained records
in source order. -/
def gfcLoop (video_url : String) (phrases : List String) : List Comment → List FilteredComment
  | [] => []
  | c :: cs =>
    if commentMatches phrases c then renderComment video_url c :: gfcLoop video_url phrases cs
    else gfcLoop video_url phrases cs

/-- get_filtered_comments (app.py lines 104-142): any exception anywhere in
the try block is caught and yields the empty list. -/
def get_filtered_comments (res : FetchResult) (video_url : String)
    (phrases : List String) : List FilteredComment :=
  match res with
  | .exn _ => []
  | .ok comments => gfcLoop video_url phrases comments

/-! ## Job store and submission service (app.py lines 46-79, 544-591)

A job record; submission_time and completion_time are wall-clock strings
irrelevant to every claim and are elided. -/

/-- The four job statuses. -/
inductive Status where
  | pending
  | processing
  | completed
  | failed
deriving DecidableEq

/-- The result object stored on completion (app.py lines 517-520). -/
structure JobResult where
  comment_count : Nat
  email_sent : Bool
deriving DecidableEq

/-- One job record of request_status / the durable file. -/
structure JobRec where
  video_url : String
  phrases : List String
  email : String
  status : Status
  error : Option String
  result : Option JobResult
deriving DecidableEq

/-- Update the record stored under a key, keeping its position (model of
in-place mutation of a dict entry). -/
def updateRec (l : List (String × JobRec)) (id : String) (f : JobRec → JobRec) :
    List (String × JobRec) :=
  l.map (fun p => if p.1 == id then (p.1, f p.2) else p)

/-- Dict assignment d[k] = v: overwrite in place when the key exists,
otherwise append (insertion order preserved). -/
def insertAssoc (l : List (String × JobRec)) (k : String) (v : JobRec) :
    List (String × JobRec) :=
  if (List.lookup k l).isSome then
    l.map (fun p => if p.1 == k then (k, v) else p)
  else l ++ [(k, v)]

/-- load_queue_from_file (app.py lines 53-68): fold over the saved records
in file order; a record with status exactly pending is appended to the
pending queue, and every record is assigned into the status table. -/
def load_queue_from_file (saved : List (String × JobRec)) :
    List String × List (String × JobRec) :=
  saved.foldl
    (fun acc p =>
      ((if p.2.status = Status.pending then acc.1 ++ [p.1] else acc.1),
        insertAssoc acc.2 p.1 p.2))
    ([], [])

/-- The worker's position in its loop: idle between jobs, holding a job
just taken from the queue, or between the processing mark and the terminal
mark. -/
inductive WorkerPhase where
  | idle
  | fetched (id : String)
  | working (id : String)
deriving DecidableEq

/-- Whole-system state: in-memory status table (insertion-ordered), the
pending queue (ids, FIFO), the worker phase, and the durable file contents
(request_queue.json), which save_queue_to_file rewrites from the table
under the lock on every mutation. -/
structure SysState where
  table : List (String × JobRec)
  queue : List String
  worker : WorkerPhase
  file : List (String × JobRec)
deriving DecidableEq

/-- The fresh-process initial state (no durable file yet). -/
def initState : SysState := ⟨[], [], WorkerPhase.idle, []⟩

/-- The JSON body of POST /api/submit; each field may be absent.  phrases
may be a JSON list or some non-list value. -/
inductive PhrasesField where
  | list (xs : List String)
  | notList
deriving DecidableEq

/-- Submission request body. -/
structure SubmitBody where
  video_url : Option String
  phrases : Option PhrasesField
  email : Option String
deriving DecidableEq

/-- Response of POST /api/submit: 200 with id/status/message, or 400 with
an error string. -/
inductive SubmitResp where
  | ok (request_id : String) (status : String) (message : String)
  | badRequest (error : String)
deriving DecidableEq

/-- The URL validation of app.py line 556. -/
def urlShapeOk (url : String) : Bool :=
  pyIn "youtube.com/watch" url || pyIn "youtu.be/" url

/-- submit_request (app.py lines 544-591); id is the freshly generated
uuid.  Returns the HTTP response and the successor state; every 400 path
leaves the state unchanged. -/
def submit_request (body : SubmitBody) (s : SysState) (id : String) :
    SubmitResp × SysState :=
  match body.video_url with
  | none => (SubmitResp.badRequest "Missing required field: video_url", s)
  | some url =>
    match body.phrases with
    | none => (SubmitResp.badRequest "Missing required field: phrases", s)
    | some ph =>
      match body.email with
      | none => (SubmitResp.badRequest "Missing required field: email", s)
      | some em =>
        if !urlShapeOk url then (SubmitResp.badRequest "Invalid YouTube URL", s)
        else
          match ph with
          | PhrasesField.notList =>
            (SubmitResp.badRequest "Phrases must be a non-empty list", s)
          | PhrasesField.list xs =>
            if xs.length = 0 then
              (SubmitResp.badRequest "Phrases must be a non-empty list", s)
            else
              let record : JobRec :=
                ⟨url, xs, em, Status.pending, none, none⟩
              let t := insertAssoc s.table id record
              (SubmitResp.ok id "pending" "Request submitted successfully",
                ⟨t, s.queue ++ [id], s.worker, t⟩)

/-- System actions: an HTTP submission (with the uuid chosen fresh), the
worker loop steps of process_queue (app.py lines 481-541) with external
outcomes as parameters, and a crash followed by restart-with-rehydration. -/
inductive Act where
  | submit (id : String) (body : SubmitBody)
  | dequeue
  | markProcessing
  | finishOk (fetch : FetchResult) (email_sent : Bool)
  | finishErr (msg : String)
  | crash
deriving DecidableEq

/-- One atomic step of the system.  none means the action is not enabled
in this state (e.g. worker steps out of order, a non-fresh uuid). -/
def step (s : SysState) : Act → Option SysState
  | Act.submit id body =>
    if (List.lookup id s.table).isSome then none
    else some (submit_request body s id).2
  | Act.dequeue =>
    match s.worker, s.queue with
    | WorkerPhase.idle, id :: rest =>
      some { s with queue := rest, worker := WorkerPhase.fetched id }
    | _, _ => none
  | Act.markProcessing =>
    match s.worker with
    | WorkerPhase.fetched id =>
      match List.lookup id s.table with
      | some _ =>
        let t := updateRec s.table id (fun r => { r with status := Status.processing })
        some ⟨t, s.queue, WorkerPhase.working id, t⟩
      | none => none
    | _ => none
  | Act.finishOk fetch email_sent =>
    match s.worker with
    | WorkerPhase.working id =>
      match List.lookup id s.table with
      | some r =>
        let comments := get_filtered_comments fetch r.video_url r.phrases
        let t := updateRec s.table id (fun r0 =>
          { r0 with status := Status.completed,
                    result := some ⟨comments.length, email_sent⟩ })
        some ⟨t, s.queue, WorkerPhase.idle, t⟩
      | none => none
    | _ => none
  | Act.finishErr msg =>
    match s.worker with
    | WorkerPhase.working id =>
      match List.lookup id s.table with
      | some _ =>
        let t := updateRec s.table id (fun r0 =>
          { r0 with status := Status.failed, error := some msg })
        some ⟨t, s.queue, WorkerPhase.idle, t⟩
      | none => none
    | _ => none
  | Act.crash =>
    let lq := load_queue_from_file s.file
    some ⟨lq.2, lq.1, WorkerPhase.idle, s.file⟩

/-- Run a list of actions from a state. -/
def run (s : SysState) : List Act → Option SysState
  | [] => some s
  | a :: rest =>
    match step s a with
    | none => none
    | some s2 => run s2 rest

/-- A state is reachable when some action sequence leads to it from the
fresh initial state. -/
def ReachableSys (s : SysState) : Prop := ∃ acts, run initState acts = some s

/-- Number of records whose status is processing. -/
def processingCount (s : SysState) : Nat :=
  (s.table.filter (fun p => p.2.status == Status.processing)).length

/-! ## Association-list helper lemmas -/

theorem lookup_eq_none_iff (k : String) (l : List (String × JobRec)) :
    List.lookup k l = none ↔ k ∉ l.map Prod.fst := by
  induction l with
  | nil => simp
  | cons p ps ih =>
    obtain ⟨a, b⟩ := p
    rw [List.lookup_cons]
    cases hk : k == a with
    | true =>
      simp only [beq_iff_eq] at hk
      subst hk
      simp
    | false =>
      have hne : ¬ (k = a) := by simpa using hk
      simp only [hk]
      simp [ih, hne]

theorem lookup_append_of_none (k : String) (l l2 : List (String × JobRec))
    (h : List.lookup k l = none) :
    List.lookup k (l ++ l2) = List.lookup k l2 := by
  induction l with
  | nil => simp
  | cons p ps ih =>
    obtain ⟨a, b⟩ := p
    rw [List.lookup_cons] at h
    rw [List.cons_append, List.lookup_cons]
    cases hk : k == a with
    | true => simp [hk] at h
    | false => simp only [hk] at h ⊢; exact ih h

theorem insertAssoc_of_none (l : List (String × JobRec)) (k : String) (v : JobRec)
    (h : List.lookup k l = none) : insertAssoc l k v = l ++ [(k, v)] := by
  unfold insertAssoc
  rw [h]
  simp

theorem lookup_map_overwrite (k : String) (v : JobRec) (l : List (String × JobRec))
    (h : (List.lookup k l).isSome = true) :
    List.lookup k (l.map (fun p => if p.1 == k then (k, v) else p)) = some v := by
  induction l with
  | nil => simp at h
  | cons p ps ih =>
    obtain ⟨a, b⟩ := p
    rw [List.lookup_cons] at h
    cases hka : k == a with
    | true =>
      have hEq : k = a := by simpa using hka
      subst hEq
      simp [List.lookup_cons]
    | false =>
      have hne : ¬ (k = a) := by simpa using hka
      have hka2 : (a == k) = false := by
        simp only [beq_eq_false_iff_ne, ne_eq]
        exact fun hh => hne hh.symm
      simp only [List.map_cons, hka2, Bool.false_eq_true, if_false]
      simp only [List.lookup_cons, hka]
      rw [hka] at h
      exact ih h

theorem lookup_insertAssoc_self (l : List (String × JobRec)) (k : String) (v : JobRec) :
    List.lookup k (insertAssoc l k v) = some v := by
  unfold insertAssoc
  cases h : (List.lookup k l).isSome with
  | false =>
    simp only [Bool.false_eq_true, if_false]
    rw [lookup_append_of_none k l _ (by cases h2 : List.lookup k l <;> simp_all)]
    simp [List.lookup_cons]
  | true =>
    simp only [if_true]
    exact lookup_map_overwrite k v l h

theorem updateRec_keys (l : List (String × JobRec)) (id : String) (f : JobRec → JobRec) :
    (updateRec l id f).map Prod.fst = l.map Prod.fst := by
  unfold updateRec
  induction l with
  | nil => rfl
  | cons p ps ih =>
    simp only [List.map_cons, ih]
    by_cases hp : p.1 == id <;> simp [hp]

theorem lookup_updateRec_self (l : List (String × JobRec)) (id : String)
    (f : JobRec → JobRec) :
    List.lookup id (updateRec l id f) = (List.lookup id l).map f := by
  unfold updateRec
  induction l with
  | nil => simp
  | cons p ps ih =>
    obtain ⟨a, b⟩ := p
    cases hk : id == a with
    | true =>
      have hEq : id = a := by simpa using hk
      subst hEq
      simp [List.lookup_cons]
    | false =>
      have hne : ¬ (id = a) := by simpa using hk
      have hk2 : (a == id) = false := by
        simp only [beq_eq_false_iff_ne, ne_eq]
        exact fun hh => hne hh.symm
      simp only [List.map_cons, hk2, Bool.false_eq_true, if_false]
      simp only [List.lookup_cons, hk]
      exact ih

/-! ## Comment filter lemmas -/

/-- The filtering loop keeps exactly the records passing commentMatches, in
source order. -/
theorem gfcLoop_eq (video_url : String) (phrases : List String) (cs : List Comment) :
    gfcLoop video_url phrases cs =
      (cs.filter (commentMatches phrases)).map (renderComment video_url) := by
  induction cs with
  | nil => rfl
  | cons c cs ih =>
    unfold gfcLoop
    cases hm : commentMatches phrases c with
    | true => simp [List.filter_cons, hm, ih]
    | false => simp [List.filter_cons, hm, ih]

/-- Boolean retention test unfolded to the declarative form: every phrase,
lowercased, occurs contiguously in the lowercased comment text. -/
theorem commentMatches_iff (phrases : List String) (c : Comment) :
    commentMatches phrases c = true ↔
      ∀ p ∈ phrases,
        SeqSub (pyLower p).toList (pyLower (c.text.getD "")).toList := by
  unfold commentMatches
  rw [List.all_eq_true]
  constructor
  · intro h p hp
    exact (pyIn_iff _ _).mp (h p hp)
  · intro h p hp
    exact (pyIn_iff _ _).mpr (h p hp)

/-- Permuting the phrase list does not change the retention test. -/
theorem commentMatches_perm (phrases phrases2 : List String)
    (hperm : phrases.Perm phrases2) (c : Comment) :
    commentMatches phrases2 c = commentMatches phrases c := by
  cases h1 : commentMatches phrases c with
  | true =>
    rw [commentMatches_iff] at h1 ⊢
    exact fun p hp => h1 p (hperm.mem_iff.mpr hp)
  | false =>
    cases h2 : commentMatches phrases2 c with
    | false => rfl
    | true =>
      rw [commentMatches_iff] at h2
      have : commentMatches phrases c = true := by
        rw [commentMatches_iff]
        exact fun p hp => h2 p (hperm.mem_iff.mp hp)
      rw [h1] at this
      exact absurd this (by simp)

/-! ## Rehydration lemmas (for load_queue_from_file) -/

/-- Unfolded characterization of the queue component of the rehydration
fold: the pending records, in file order. -/
theorem load_fold_fst (saved : List (String × JobRec)) :
    ∀ (accq : List String) (acct : List (String × JobRec)),
      (saved.foldl
        (fun acc p =>
          ((if p.2.status = Status.pending then acc.1 ++ [p.1] else acc.1),
            insertAssoc acc.2 p.1 p.2)) (accq, acct)).1
      = accq ++ (saved.filter (fun p => p.2.status == Status.pending)).map Prod.fst := by
  induction saved with
  | nil => intro accq acct; simp
  | cons p ps ih =>
    intro accq acct
    simp only [List.foldl_cons]
    rw [ih]
    by_cases hp : p.2.status = Status.pending
    · simp [List.filter_cons, hp]
    · simp [List.filter_cons, hp]

/-- Unfolded characterization of the table component of the rehydration
fold: with fresh, duplicate-free keys the fold appends the records in file
order. -/
theorem load_fold_snd (saved : List (String × JobRec)) :
    ∀ (accq : List String) (acct : List (String × JobRec)),
      (∀ p ∈ saved, List.lookup p.1 acct = none) →
      (saved.map Prod.fst).Nodup →
      (saved.foldl
        (fun acc p =>
          ((if p.2.status = Status.pending then acc.1 ++ [p.1] else acc.1),
            insertAssoc acc.2 p.1 p.2)) (accq, acct)).2
      = acct ++ saved := by
  induction saved with
  | nil => intro accq acct _ _; simp
  | cons p ps ih =>
    intro accq acct hdisj hnodup
    simp only [List.foldl_cons]
    have hnone : List.lookup p.1 acct = none := hdisj p (by simp)
    rw [show insertAssoc acct p.1 p.2 = acct ++ [(p.1, p.2)] from insertAssoc_of_none _ _ _ hnone]
    have hkey : p.1 ∉ ps.map Prod.fst := by
      simp only [List.map_cons, List.nodup_cons] at hnodup
      exact hnodup.1
    have hdisj2 : ∀ q ∈ ps, List.lookup q.1 (acct ++ [(p.1, p.2)]) = none := by
      intro q hq
      rw [lookup_append_of_none _ _ _ (hdisj q (List.mem_cons_of_mem _ hq))]
      have hne : q.1 ≠ p.1 := by
        intro hEq
        exact hkey (hEq ▸ List.mem_map.mpr ⟨q, hq, rfl⟩)
      rw [List.lookup_cons]
      have : (q.1 == p.1) = false := by simpa using hne
      simp [this]
    have hnodup2 : (ps.map Prod.fst).Nodup := by
      simp only [List.map_cons, List.nodup_cons] at hnodup
      exact hnodup.2
    rw [ih _ _ hdisj2 hnodup2]
    simp

/-- Under duplicate-free keys, a member is what lookup finds. -/
theorem lookup_of_mem_nodup (l : List (String × JobRec)) (k : String) (r : JobRec)
    (hm : (k, r) ∈ l) (hnd : (l.map Prod.fst).Nodup) : List.lookup k l = some r := by
  induction l with
  | nil => simp at hm
  | cons p ps ih =>
    obtain ⟨a, b⟩ := p
    simp only [List.map_cons, List.nodup_cons] at hnd
    rcases List.mem_cons.mp hm with hEq | htail
    · injection hEq with h1 h2
      subst h1
      subst h2
      simp [List.lookup_cons]
    · have hne : (k == a) = false := by
        have : k ∈ ps.map Prod.fst := List.mem_map.mpr ⟨(k, r), htail, rfl⟩
        have hka : ¬ (k = a) := fun hh => hnd.1 (hh ▸ this)
        simpa using hka
      rw [List.lookup_cons]
      simp only [hne]
      exact ih htail hnd.2

/-- Under duplicate-free keys, two members with the same key coincide. -/
theorem key_unique (l : List (String × JobRec)) (hnd : (l.map Prod.fst).Nodup)
    (k : String) (r1 r2 : JobRec) (h1 : (k, r1) ∈ l) (h2 : (k, r2) ∈ l) : r1 = r2 := by
  have e1 := lookup_of_mem_nodup l k r1 h1 hnd
  have e2 := lookup_of_mem_nodup l k r2 h2 hnd
  rw [e1] at e2
  injection e2

/-! ## Claim theorems (first group) -/

/-- C6: for every video URL and phrase list, any exception raised while
contacting the comment source, iterating its sequence, or processing a
record inside the loop (after any number of records already yielded) is
caught by get_filtered_comments, which returns the empty list instead of
raising: the try block of app.py lines 106-142 covers the whole fetch and
loop, and the except branch returns []. -/
theorem c6_filter_swallows_fetch_errors :
    ∀ (video_url : String) (phrases : List String) (yielded : List Comment),
      get_filtered_comments (FetchResult.exn yielded) video_url phrases = [] := by
  intro video_url phrases yielded
  rfl

/-- C7: for every non-empty phrase list, the filter output consists of
exactly the source records passing the retention test, rendered in source
order; the test holds iff every phrase is a case-insensitive (lowercased)
contiguous substring of the comment text; and permuting the phrase list
(the AND is order-insensitive) leaves the output unchanged. -/
theorem c7_filter_retention (video_url : String) (phrases : List String)
    (cs : List Comment) (hne : phrases ≠ []) :
    get_filtered_comments (FetchResult.ok cs) video_url phrases
        = (cs.filter (commentMatches phrases)).map (renderComment video_url)
    ∧ (∀ c : Comment, commentMatches phrases c = true ↔
        ∀ p ∈ phrases, SeqSub (pyLower p).toList (pyLower (c.text.getD "")).toList)
    ∧ (∀ phrases2, phrases.Perm phrases2 →
        get_filtered_comments (FetchResult.ok cs) video_url phrases2
          = get_filtered_comments (FetchResult.ok cs) video_url phrases) := by
  refine ⟨gfcLoop_eq video_url phrases cs, fun c => commentMatches_iff phrases c, ?_⟩
  intro phrases2 hperm
  show gfcLoop video_url phrases2 cs = gfcLoop video_url phrases cs
  rw [gfcLoop_eq, gfcLoop_eq]
  rw [List.filter_congr (fun c _ => commentMatches_perm phrases phrases2 hperm c)]

/-- Concrete comments for the C7 witness. -/
def c7cs : List Comment :=
  [⟨some "Hello World", some "c1", some "au", some "t1", some 3⟩,
   ⟨some "hello", none, none, none, none⟩,
   ⟨some "nothing here", some "c3", none, none, none⟩]

/-- Witness for C7 at a concrete input. -/
theorem c7_witness :
    (["HELLO"] ≠ ([] : List String))
    ∧ get_filtered_comments (FetchResult.ok c7cs) "u" ["HELLO"]
        = (c7cs.filter (commentMatches ["HELLO"])).map (renderComment "u") :=
  ⟨by decide, (c7_filter_retention "u" ["HELLO"] c7cs (by decide)).1⟩

/-- C9: every entry produced by the timestamp extractor links to the video
URL with a t=<seconds>s parameter, separated by "&" when the URL already
contains a "?" and by "?" otherwise. -/
theorem c9_deeplink_separator (text video_url : String) (e : TsEntry)
    (he : e ∈ extract_timestamps text video_url) :
    e.link = if video_url.toList.contains '?'
             then video_url ++ "&t=" ++ toString e.seconds ++ "s"
             else video_url ++ "?t=" ++ toString e.seconds ++ "s" := by
  unfold extract_timestamps at he
  obtain ⟨m, hm, rfl⟩ := List.mem_map.mp he
  have hq : pyIn "?" video_url = video_url.toList.contains '?' := by
    unfold pyIn
    have : ("?" : String).toList = ['?'] := rfl
    rw [this]
    exact hasSubB_singleton '?' video_url.toList
  simp only
  cases hc : video_url.toList.contains '?' with
  | true =>
    rw [hq, hc]
    simp only [if_true]
    rw [String.append_assoc video_url "&" "t="]
    rw [show ("&" : String) ++ "t=" = "&t=" from rfl]
  | false =>
    rw [hq, hc]
    simp only [Bool.false_eq_true, if_false]
    rw [String.append_assoc video_url "?" "t="]
    rw [show ("?" : String) ++ "t=" = "?t=" from rfl]

/-- The concrete entry for the C9 witness. -/
def c9e : TsEntry := ⟨"1:23", 83, "u?v=1&t=83s"⟩

/-- Witness for C9 at a concrete input whose URL contains a "?". -/
theorem c9_witness :
    c9e.link = if ("u?v=1".toList.contains '?')
               then "u?v=1" ++ "&t=" ++ toString c9e.seconds ++ "s"
               else "u?v=1" ++ "?t=" ++ toString c9e.seconds ++ "s" :=
  c9_deeplink_separator "at 1:23" "u?v=1" c9e (by decide)

/-- C10: every retained comment's direct link appends "&lc=<comment id>"
to the video URL with "&" unconditionally (never switching to "?", for any
URL), and degrades to the bare video URL when the source provides no
comment identifier or an empty one. -/
theorem c10_comment_link :
    ∀ (video_url : String) (phrases : List String) (cs : List Comment),
      (get_filtered_comments (FetchResult.ok cs) video_url phrases).map FilteredComment.link
        = (cs.filter (commentMatches phrases)).map
            (fun c => if c.cid.getD "" ≠ "" then video_url ++ "&lc=" ++ c.cid.getD ""
                      else video_url) := by
  intro video_url phrases cs
  show (gfcLoop video_url phrases cs).map FilteredComment.link = _
  rw [gfcLoop_eq, List.map_map]
  rfl

/-- C2: rehydration re-inserts into the pending queue exactly the records
whose status is pending (in particular completed, failed and processing
records are never re-queued), while every record of the durable file,
whatever its status, is inserted into the lookup table. -/
theorem c2_rehydrate_pending_only (saved : List (String × JobRec))
    (hnd : (saved.map Prod.fst).Nodup) :
    (∀ id r, (id, r) ∈ saved →
        (id ∈ (load_queue_from_file saved).1 ↔ r.status = Status.pending))
    ∧ (∀ id r, (id, r) ∈ saved →
        List.lookup id (load_queue_from_file saved).2 = some r)
    ∧ (∀ id, id ∈ (load_queue_from_file saved).1 →
        ∃ r, (id, r) ∈ saved ∧ r.status = Status.pending) := by
  have hq : (load_queue_from_file saved).1
      = (saved.filter (fun p => p.2.status == Status.pending)).map Prod.fst := by
    unfold load_queue_from_file
    rw [load_fold_fst saved [] []]
    simp
  have ht : (load_queue_from_file saved).2 = saved := by
    unfold load_queue_from_file
    rw [load_fold_snd saved [] [] (fun p _ => rfl) hnd]
    simp
  refine ⟨?_, ?_, ?_⟩
  · intro id r hmem
    rw [hq]
    constructor
    · intro hin
      obtain ⟨q, hqf, hqe⟩ := List.mem_map.mp hin
      have hqs : q.2.status = Status.pending := by
        have := List.of_mem_filter hqf
        simpa using this
      have hqmem : q ∈ saved := List.mem_of_mem_filter hqf
      have : q.2 = r := by
        have hq1 : (id, q.2) ∈ saved := by
          have : q = (q.1, q.2) := rfl
          rw [hqe] at this
          exact this ▸ hqmem
        exact key_unique saved hnd id q.2 r hq1 hmem
      rw [← this]
      exact hqs
    · intro hpend
      exact List.mem_map.mpr ⟨(id, r), List.mem_filter.mpr ⟨hmem, by simpa using hpend⟩, rfl⟩
  · intro id r hmem
    rw [ht]
    exact lookup_of_mem_nodup saved id r hmem hnd
  · intro id hin
    rw [hq] at hin
    obtain ⟨q, hqf, hqe⟩ := List.mem_map.mp hin
    refine ⟨q.2, ?_, by simpa using List.of_mem_filter hqf⟩
    have : q = (q.1, q.2) := rfl
    rw [hqe] at this
    exact this ▸ List.mem_of_mem_filter hqf

/-- Concrete durable file for the C2 witness: one record of each status. -/
def c2saved : List (String × JobRec) :=
  [("a", ⟨"https://www.youtube.com/watch?v=A", ["x"], "a@x", Status.pending, none, none⟩),
   ("b", ⟨"https://www.youtube.com/watch?v=B", ["y"], "b@x", Status.processing, none, none⟩),
   ("c", ⟨"https://www.youtube.com/watch?v=C", ["z"], "c@x", Status.completed, none,
      some ⟨2, true⟩⟩),
   ("d", ⟨"https://www.youtube.com/watch?v=D", ["w"], "d@x", Status.failed, some "boom", none⟩)]

/-- Witness for C2: on the concrete file, the pending record is re-queued
(and lookup finds the failed record unchanged). -/
theorem c2_witness :
    ("a" ∈ (load_queue_from_file c2saved).1 ↔
        (⟨"https://www.youtube.com/watch?v=A", ["x"], "a@x", Status.pending, none, none⟩ : JobRec).status
          = Status.pending)
    ∧ List.lookup "d" (load_queue_from_file c2saved).2
        = some ⟨"https://www.youtube.com/watch?v=D", ["w"], "d@x", Status.failed, some "boom", none⟩ := by
  have h := c2_rehydrate_pending_only c2saved (by decide)
  exact ⟨h.1 "a" _ (by decide), h.2.1 "d" _ (by decide)⟩

/-! ## Claim theorems: worker loop (C3, C4) -/

/-- C3: when any exception escapes the per-job try block (modelled by the
finishErr action while a job is being worked), the job's record is set to
failed with the exception message in its error field, the durable file is
rewritten from the table (persisted), and the worker returns to idle so
the loop continues: a next dequeue is enabled whenever the queue is
non-empty (app.py lines 525-535). -/
theorem c3_worker_failure_marks_failed (s : SysState) (id msg : String) (r : JobRec)
    (hw : s.worker = WorkerPhase.working id) (hr : List.lookup id s.table = some r) :
    ∃ s2, step s (Act.finishErr msg) = some s2
      ∧ List.lookup id s2.table = some { r with status := Status.failed, error := some msg }
      ∧ s2.file = s2.table
      ∧ s2.worker = WorkerPhase.idle
      ∧ s2.queue = s.queue
      ∧ (s2.queue ≠ [] → (step s2 Act.dequeue).isSome = true) := by
  refine ⟨⟨updateRec s.table id (fun r0 => { r0 with status := Status.failed, error := some msg }),
          s.queue, WorkerPhase.idle,
          updateRec s.table id (fun r0 => { r0 with status := Status.failed, error := some msg })⟩,
        ?_, ?_, rfl, rfl, rfl, ?_⟩
  · simp [step, hw, hr]
  · rw [lookup_updateRec_self, hr]
    rfl
  · intro hq
    cases hqu : s.queue with
    | nil => exact absurd hqu hq
    | cons q qs => simp [step, hqu]

/-- Concrete pre-state for the C3 and C4 witnesses: worker mid-job on "a",
a second job "b" queued. -/
def workerMidState : SysState :=
  ⟨[("a", ⟨"https://www.youtube.com/watch?v=A", ["x"], "a@x", Status.processing, none, none⟩),
    ("b", ⟨"https://www.youtube.com/watch?v=B", ["y"], "b@x", Status.pending, none, none⟩)],
   ["b"], WorkerPhase.working "a",
   [("a", ⟨"https://www.youtube.com/watch?v=A", ["x"], "a@x", Status.processing, none, none⟩),
    ("b", ⟨"https://www.youtube.com/watch?v=B", ["y"], "b@x", Status.pending, none, none⟩)]⟩

/-- Witness for C3 at a concrete state and exception message. -/
theorem c3_witness :
    ∃ s2, step workerMidState (Act.finishErr "boom") = some s2
      ∧ List.lookup "a" s2.table
          = some { (⟨"https://www.youtube.com/watch?v=A", ["x"], "a@x", Status.processing, none, none⟩ : JobRec)
                    with status := Status.failed, error := some "boom" }
      ∧ s2.file = s2.table
      ∧ s2.worker = WorkerPhase.idle
      ∧ s2.queue = workerMidState.queue
      ∧ (s2.queue ≠ [] → (step s2 Act.dequeue).isSome = true) :=
  c3_worker_failure_marks_failed workerMidState "a" "boom"
    ⟨"https://www.youtube.com/watch?v=A", ["x"], "a@x", Status.processing, none, none⟩
    rfl (by decide)

/-- C4: when the fetch/filter/render/send sequence returns (fetch outcome
and the boolean returned by the mail step being arbitrary, in particular
email_sent = false), the job is marked completed, never failed, with
result comment_count = number of filtered comments and email_sent = the
returned boolean, the file is persisted, and the worker returns to idle
(app.py lines 503-523). -/
theorem c4_completed_even_if_email_fails (s : SysState) (id : String) (r : JobRec)
    (fetch : FetchResult) (email_sent : Bool)
    (hw : s.worker = WorkerPhase.working id) (hr : List.lookup id s.table = some r) :
    ∃ s2, step s (Act.finishOk fetch email_sent) = some s2
      ∧ List.lookup id s2.table
          = some { r with status := Status.completed,
                          result := some ⟨(get_filtered_comments fetch r.video_url r.phrases).length,
                                          email_sent⟩ }
      ∧ s2.file = s2.table
      ∧ s2.worker = WorkerPhase.idle
      ∧ s2.queue = s.queue := by
  refine ⟨⟨updateRec s.table id (fun r0 =>
            { r0 with status := Status.completed,
                      result := some ⟨(get_filtered_comments fetch r.video_url r.phrases).length,
                                      email_sent⟩ }),
          s.queue, WorkerPhase.idle,
          updateRec s.table id (fun r0 =>
            { r0 with status := Status.completed,
                      result := some ⟨(get_filtered_comments fetch r.video_url r.phrases).length,
                                      email_sent⟩ })⟩,
        ?_, ?_, rfl, rfl, rfl⟩
  · simp [step, hw, hr]
  · rw [lookup_updateRec_self, hr]
    rfl

/-- Witness for C4 at a concrete state with a failing mail step
(email_sent = false) and a fetch that raised (zero comments). -/
theorem c4_witness :
    ∃ s2, step workerMidState (Act.finishOk (FetchResult.exn []) false) = some s2
      ∧ List.lookup "a" s2.table
          = some { (⟨"https://www.youtube.com/watch?v=A", ["x"], "a@x", Status.processing, none, none⟩ : JobRec)
                    with status := Status.completed,
                         result := some ⟨(get_filtered_comments (FetchResult.exn [])
                            "https://www.youtube.com/watch?v=A" ["x"]).length, false⟩ }
      ∧ s2.file = s2.table
      ∧ s2.worker = WorkerPhase.idle
      ∧ s2.queue = workerMidState.queue :=
  c4_completed_even_if_email_fails workerMidState "a"
    ⟨"https://www.youtube.com/watch?v=A", ["x"], "a@x", Status.processing, none, none⟩
    (FetchResult.exn []) false rfl (by decide)

/-! ## Claim theorem: submission validation (C5) -/

/-- C5: a submission missing any of video_url, phrases, email is answered
with a 400 naming a missing field; a phrases field that is not a list or
is the empty list yields a 400; a video_url without a recognized
watch-URL or short-URL shape yields a 400; every 400 leaves the store
unchanged (no job created or enqueued); and a valid submission creates a
pending job under the fresh id, enqueues it, and answers with the id and
pending status (app.py lines 544-591). -/
theorem c5_submit_validation (body : SubmitBody) (s : SysState) (id : String) :
    ((body.video_url = none ∨ body.phrases = none ∨ body.email = none) →
      ∃ f, ((f = "video_url" ∧ body.video_url = none)
            ∨ (f = "phrases" ∧ body.phrases = none)
            ∨ (f = "email" ∧ body.email = none))
        ∧ submit_request body s id
            = (SubmitResp.badRequest ("Missing required field: " ++ f), s))
    ∧ (∀ ph, body.phrases = some ph →
        (ph = PhrasesField.notList ∨ ph = PhrasesField.list []) →
        ∃ e, submit_request body s id = (SubmitResp.badRequest e, s))
    ∧ (∀ url, body.video_url = some url → urlShapeOk url = false →
        ∃ e, submit_request body s id = (SubmitResp.badRequest e, s))
    ∧ (∀ url xs em, body = ⟨some url, some (PhrasesField.list xs), some em⟩ →
        urlShapeOk url = true → xs ≠ [] →
        submit_request body s id
            = (SubmitResp.ok id "pending" "Request submitted successfully",
               ⟨insertAssoc s.table id ⟨url, xs, em, Status.pending, none, none⟩,
                s.queue ++ [id], s.worker,
                insertAssoc s.table id ⟨url, xs, em, Status.pending, none, none⟩⟩)
          ∧ List.lookup id (insertAssoc s.table id ⟨url, xs, em, Status.pending, none, none⟩)
              = some ⟨url, xs, em, Status.pending, none, none⟩) := by
  obtain ⟨vu, phf, em⟩ := body
  refine ⟨?_, ?_, ?_, ?_⟩
  · intro hmiss
    cases vu with
    | none => exact ⟨"video_url", Or.inl ⟨rfl, rfl⟩, rfl⟩
    | some url =>
      cases phf with
      | none => exact ⟨"phrases", Or.inr (Or.inl ⟨rfl, rfl⟩), rfl⟩
      | some phv =>
        cases em with
        | none => exact ⟨"email", Or.inr (Or.inr ⟨rfl, rfl⟩), rfl⟩
        | some e0 => simp at hmiss
  · intro ph hph hbad
    cases vu with
    | none => exact ⟨"Missing required field: video_url", rfl⟩
    | some url =>
      cases phf with
      | none => simp at hph
      | some phv =>
        have hphv : phv = ph := by injection hph
        subst hphv
        cases em with
        | none => exact ⟨"Missing required field: email", rfl⟩
        | some e0 =>
          cases hurl : urlShapeOk url with
          | false =>
            refine ⟨"Invalid YouTube URL", ?_⟩
            unfold submit_request
            simp [hurl]
          | true =>
            rcases hbad with rfl | rfl
            · refine ⟨"Phrases must be a non-empty list", ?_⟩
              unfold submit_request
              simp [hurl]
            · refine ⟨"Phrases must be a non-empty list", ?_⟩
              unfold submit_request
              simp [hurl]
  · intro url hurl hbadurl
    cases vu with
    | none => simp at hurl
    | some url0 =>
      have hu0 : url0 = url := by injection hurl
      subst hu0
      cases phf with
      | none => exact ⟨"Missing required field: phrases", rfl⟩
      | some phv =>
        cases em with
        | none => exact ⟨"Missing required field: email", rfl⟩
        | some e0 =>
          refine ⟨"Invalid YouTube URL", ?_⟩
          unfold submit_request
          simp [hbadurl]
  · intro url xs em2 hbody hurl hxs
    injection hbody with h1 h2 h3
    have hvu : vu = some url := h1
    have hph : phf = some (PhrasesField.list xs) := h2
    have hem : em = some em2 := h3
    subst hvu
    subst hph
    subst hem
    constructor
    · unfold submit_request
      have hlen : xs.length ≠ 0 := fun h => hxs (List.length_eq_zero.mp h)
      simp [hurl, hlen]
    · exact lookup_insertAssoc_self s.table id ⟨url, xs, em2, Status.pending, none, none⟩

/-- Bodies for the C5 witness. -/
def c5bodyMissing : SubmitBody :=
  ⟨none, some (PhrasesField.list ["x"]), some "a@x"⟩

/-- Body with empty phrase list. -/
def c5bodyEmptyPhrases : SubmitBody :=
  ⟨some "https://www.youtube.com/watch?v=A", some (PhrasesField.list []), some "a@x"⟩

/-- Body with an unrecognized URL. -/
def c5bodyBadUrl : SubmitBody :=
  ⟨some "https://example.com/video", some (PhrasesField.list ["x"]), some "a@x"⟩

/-- A fully valid body. -/
def c5bodyOk : SubmitBody :=
  ⟨some "https://youtu.be/A", some (PhrasesField.list ["x"]), some "a@x"⟩

/-- Witness for C5: each validation branch exercised at a concrete input,
plus the success branch. -/
theorem c5_witness :
    (∃ f, ((f = "video_url" ∧ c5bodyMissing.video_url = none)
           ∨ (f = "phrases" ∧ c5bodyMissing.phrases = none)
           ∨ (f = "email" ∧ c5bodyMissing.email = none))
       ∧ submit_request c5bodyMissing initState "j1"
           = (SubmitResp.badRequest ("Missing required field: " ++ f), initState))
    ∧ (∃ e, submit_request c5bodyEmptyPhrases initState "j2"
          = (SubmitResp.badRequest e, initState))
    ∧ (∃ e, submit_request c5bodyBadUrl initState "j3"
          = (SubmitResp.badRequest e, initState))
    ∧ (submit_request c5bodyOk initState "j4"
         = (SubmitResp.ok "j4" "pending" "Request submitted successfully",
            ⟨insertAssoc initState.table "j4"
               ⟨"https://youtu.be/A", ["x"], "a@x", Status.pending, none, none⟩,
             initState.queue ++ ["j4"], initState.worker,
             insertAssoc initState.table "j4"
               ⟨"https://youtu.be/A", ["x"], "a@x", Status.pending, none, none⟩⟩)
       ∧ List.lookup "j4" (insertAssoc initState.table "j4"
             ⟨"https://youtu.be/A", ["x"], "a@x", Status.pending, none, none⟩)
           = some ⟨"https://youtu.be/A", ["x"], "a@x", Status.pending, none, none⟩) :=
  ⟨(c5_submit_validation c5bodyMissing initState "j1").1 (by decide),
   (c5_submit_validation c5bodyEmptyPhrases initState "j2").2.1
      (PhrasesField.list []) rfl (Or.inr rfl),
   (c5_submit_validation c5bodyBadUrl initState "j3").2.2.1
      "https://example.com/video" rfl (by decide),
   (c5_submit_validation c5bodyOk initState "j4").2.2.2
      "https://youtu.be/A" ["x"] "a@x" rfl (by decide) (by decide)⟩

/-! ## C1: the single-processing invariant -/

/-- Any submission either leaves the state unchanged (validation failure)
or appends a fresh pending record and enqueues its id. -/
theorem submit_request_state (body : SubmitBody) (s : SysState) (id : String) :
    (submit_request body s id).2 = s
    ∨ ∃ url xs em, (submit_request body s id).2
        = ⟨insertAssoc s.table id ⟨url, xs, em, Status.pending, none, none⟩,
           s.queue ++ [id], s.worker,
           insertAssoc s.table id ⟨url, xs, em, Status.pending, none, none⟩⟩ := by
  obtain ⟨vu, phf, em⟩ := body
  cases vu with
  | none => exact Or.inl rfl
  | some url =>
    cases phf with
    | none => exact Or.inl rfl
    | some phv =>
      cases em with
      | none => exact Or.inl rfl
      | some e0 =>
        cases hurl : urlShapeOk url with
        | false =>
          left
          unfold submit_request
          simp [hurl]
        | true =>
          cases phv with
          | notList =>
            left
            unfold submit_request
            simp [hurl]
          | list xs =>
            cases hxs : xs.length with
            | zero =>
              left
              unfold submit_request
              simp [hurl, hxs]
            | succ n =>
              right
              refine ⟨url, xs, e0, ?_⟩
              unfold submit_request
              simp [hurl, hxs]

/-- Inductive invariant for crash-free runs: table keys are duplicate-free
and every record in processing status belongs to the job the worker is
currently working. -/
def SysInv (s : SysState) : Prop :=
  (s.table.map Prod.fst).Nodup
  ∧ ∀ p ∈ s.table, p.2.status = Status.processing → s.worker = WorkerPhase.working p.1

theorem sysInv_init : SysInv initState := by
  constructor
  · simp [initState]
  · intro p hp
    simp [initState] at hp

/-- Every non-crash step preserves the invariant. -/
theorem sysInv_step (s s2 : SysState) (a : Act) (ha : a ≠ Act.crash)
    (h : SysInv s) (hstep : step s a = some s2) : SysInv s2 := by
  obtain ⟨hnd, hproc⟩ := h
  cases a with
  | crash => exact absurd rfl ha
  | submit id body =>
    simp only [step] at hstep
    by_cases hfresh : (List.lookup id s.table).isSome = true
    · rw [if_pos hfresh] at hstep
      exact absurd hstep (by simp)
    · rw [if_neg hfresh] at hstep
      have hnone : List.lookup id s.table = none := by
        cases hlk : List.lookup id s.table with
        | none => rfl
        | some v => rw [hlk] at hfresh; simp at hfresh
      have hs2 : s2 = (submit_request body s id).2 := by
        injection hstep with hh
        exact hh.symm
      rcases submit_request_state body s id with heq | ⟨url, xs, em, heq⟩
      · rw [hs2, heq]; exact ⟨hnd, hproc⟩
      · rw [hs2, heq]
        rw [insertAssoc_of_none _ _ _ hnone]
        constructor
        · have hidnot : id ∉ s.table.map Prod.fst := (lookup_eq_none_iff id s.table).mp hnone
          simp [List.nodup_append, hnd, hidnot]
        · intro p hp hps
          rcases List.mem_append.mp hp with hold | hnew
          · exact hproc p hold hps
          · simp at hnew
            rw [hnew] at hps
            simp at hps
  | dequeue =>
    cases hw : s.worker with
    | idle =>
      cases hqu : s.queue with
      | nil => simp [step, hw, hqu] at hstep
      | cons q qs =>
        simp only [step, hw, hqu] at hstep
        injection hstep with hh
        subst hh
        refine ⟨hnd, ?_⟩
        intro p hp hps
        have := hproc p hp hps
        rw [hw] at this
        exact absurd this (by simp)
    | fetched i => simp [step, hw] at hstep
    | working i => simp [step, hw] at hstep
  | markProcessing =>
    cases hw : s.worker with
    | idle => simp [step, hw] at hstep
    | working i => simp [step, hw] at hstep
    | fetched id =>
      cases hlk : List.lookup id s.table with
      | none => simp [step, hw, hlk] at hstep
      | some r =>
        simp only [step, hw, hlk] at hstep
        injection hstep with hh
        subst hh
        constructor
        · simp only [updateRec_keys]
          exact hnd
        · intro p hp hps
          obtain ⟨q, hq, hqe⟩ := List.mem_map.mp hp
          by_cases hqid : (q.1 == id) = true
          · have hq1 : q.1 = id := by simpa using hqid
            rw [← hqe]
            simp only [hqid, if_true]
            rw [hq1]
          · have hpq : p = q := by rw [← hqe]; simp [hqid]
            have h2 := hproc q hq (by rw [← hpq]; exact hps)
            rw [hw] at h2
            exact absurd h2 (by simp)
  | finishOk fetch email_sent =>
    cases hw : s.worker with
    | idle => simp [step, hw] at hstep
    | fetched i => simp [step, hw] at hstep
    | working id =>
      cases hlk : List.lookup id s.table with
      | none => simp [step, hw, hlk] at hstep
      | some r =>
        simp only [step, hw, hlk] at hstep
        injection hstep with hh
        subst hh
        constructor
        · simp only [updateRec_keys]
          exact hnd
        · intro p hp hps
          obtain ⟨q, hq, hqe⟩ := List.mem_map.mp hp
          by_cases hqid : (q.1 == id) = true
          · rw [← hqe] at hps
            simp only [hqid, if_true] at hps
            simp at hps
          · have hpq : p = q := by rw [← hqe]; simp [hqid]
            have h2 := hproc q hq (by rw [← hpq]; exact hps)
            rw [hw] at h2
            have hq1 : q.1 = id := by
              injection h2 with hh
              exact hh.symm
            exact absurd (by simpa using hq1 : (q.1 == id) = true) hqid
  | finishErr msg =>
    cases hw : s.worker with
    | idle => simp [step, hw] at hstep
    | fetched i => simp [step, hw] at hstep
    | working id =>
      cases hlk : List.lookup id s.table with
      | none => simp [step, hw, hlk] at hstep
      | some r =>
        simp only [step, hw, hlk] at hstep
        injection hstep with hh
        subst hh
        constructor
        · simp only [updateRec_keys]
          exact hnd
        · intro p hp hps
          obtain ⟨q, hq, hqe⟩ := List.mem_map.mp hp
          by_cases hqid : (q.1 == id) = true
          · rw [← hqe] at hps
            simp only [hqid, if_true] at hps
            simp at hps
          · have hpq : p = q := by rw [← hqe]; simp [hqid]
            have h2 := hproc q hq (by rw [← hpq]; exact hps)
            rw [hw] at h2
            have hq1 : q.1 = id := by
              injection h2 with hh
              exact hh.symm
            exact absurd (by simpa using hq1 : (q.1 == id) = true) hqid

/-- Invariant preservation along a crash-free run. -/
theorem sysInv_run (acts : List Act) :
    ∀ s s2, SysInv s → Act.crash ∉ acts → run s acts = some s2 → SysInv s2 := by
  induction acts with
  | nil =>
    intro s s2 h _ hrun
    unfold run at hrun
    injection hrun with hh
    subst hh
    exact h
  | cons a rest ih =>
    intro s s2 h hnc hrun
    unfold run at hrun
    cases hstep : step s a with
    | none => rw [hstep] at hrun; exact absurd hrun (by simp)
    | some smid =>
      rw [hstep] at hrun
      have hanc : a ≠ Act.crash := fun hh => hnc (hh ▸ List.mem_cons_self a rest)
      have hrest : Act.crash ∉ rest := fun hh => hnc (List.mem_cons_of_mem a hh)
      exact ih smid s2 (sysInv_step s smid a hanc h hstep) hrest hrun

/-- With duplicate-free keys and all processing records owned by one key,
at most one record is in processing. -/
theorem filter_processing_le_one (l : List (String × JobRec)) (w : String)
    (hnd : (l.map Prod.fst).Nodup)
    (hall : ∀ p ∈ l, p.2.status = Status.processing → p.1 = w) :
    (l.filter (fun p => p.2.status == Status.processing)).length ≤ 1 := by
  induction l with
  | nil => simp
  | cons p ps ih =>
    simp only [List.map_cons, List.nodup_cons] at hnd
    rw [List.filter_cons]
    cases hp : p.2.status == Status.processing with
    | false =>
      simp only [Bool.false_eq_true, if_false]
      exact ih hnd.2 (fun q hq hqs => hall q (List.mem_cons_of_mem p hq) hqs)
    | true =>
      have hw : p.1 = w := hall p (List.mem_cons_self p ps) (by simpa using hp)
      have hnil : ps.filter (fun q => q.2.status == Status.processing) = [] := by
        rw [List.filter_eq_nil_iff]
        intro q hq hqs
        have hq1 : q.1 = w := hall q (List.mem_cons_of_mem p hq) (by simpa using hqs)
        exact hnd.1 (by
          rw [hw, ← hq1]
          exact List.mem_map.mpr ⟨q, hq, rfl⟩)
      simp [hnil]

/-- The invariant bounds the processing count by one. -/
theorem sysInv_count (s : SysState) (h : SysInv s) : processingCount s ≤ 1 := by
  obtain ⟨hnd, hproc⟩ := h
  unfold processingCount
  cases hw : s.worker with
  | working w =>
    refine filter_processing_le_one s.table w hnd ?_
    intro p hp hps
    have := hproc p hp hps
    rw [hw] at this
    injection this with hh
    exact hh.symm
  | idle =>
    have hnil : s.table.filter (fun p => p.2.status == Status.processing) = [] := by
      rw [List.filter_eq_nil_iff]
      intro q hq hqs
      have := hproc q hq (by simpa using hqs)
      rw [hw] at this
      exact absurd this (by simp)
    simp [hnil]
  | fetched i =>
    have hnil : s.table.filter (fun p => p.2.status == Status.processing) = [] := by
      rw [List.filter_eq_nil_iff]
      intro q hq hqs
      have := hproc q hq (by simpa using hqs)
      rw [hw] at this
      exact absurd this (by simp)
    simp [hnil]

/-! ## Claim theorems: C1 -/

/-- Valid submission bodies for the C1 counterexample run. -/
def c1BodyA : SubmitBody :=
  ⟨some "https://www.youtube.com/watch?v=A", some (PhrasesField.list ["x"]), some "a@x"⟩

/-- Second submission body for the C1 counterexample run. -/
def c1BodyB : SubmitBody :=
  ⟨some "https://www.youtube.com/watch?v=B", some (PhrasesField.list ["y"]), some "b@x"⟩

/-- The counterexample run: job a is submitted, dequeued and marked
processing; the process crashes (the durable file holds a as processing)
and restarts, rehydration keeping a in processing without re-queueing it;
then job b is submitted, dequeued and marked processing. -/
def c1CexActs : List Act :=
  [Act.submit "a" c1BodyA, Act.dequeue, Act.markProcessing, Act.crash,
   Act.submit "b" c1BodyB, Act.dequeue, Act.markProcessing]

/-- The state reached by the counterexample run. -/
def c1BadState : SysState := (run initState c1CexActs).getD initState

/-- C1 counterexample: the claim that at most one record is in processing
at every reachable state, crash and restart-with-rehydration included, is
false: after a crash strands job a in processing, rehydration keeps its
status and the worker marks job b processing, so two records carry the
processing status. -/
theorem c1_counterexample :
    ¬ (∀ s : SysState, ReachableSys s → processingCount s ≤ 1) := by
  intro h
  have hs : run initState c1CexActs = some c1BadState := by decide
  have h2 : processingCount c1BadState = 2 := by decide
  have := h c1BadState ⟨c1CexActs, hs⟩
  rw [h2] at this
  exact absurd this (by decide)

/-- C1 amended: along every run without a crash/restart, at most one job
record has status processing at any instant (single worker, no parallel
dequeue); after a crash, records stranded in processing are rehydrated
with that status and can coexist with the job the restarted worker marks
processing. -/
theorem c1_amended_single_processing (s : SysState) (acts : List Act)
    (hnc : Act.crash ∉ acts) (hrun : run initState acts = some s) :
    processingCount s ≤ 1 :=
  sysInv_count s (sysInv_run acts initState s sysInv_init hnc hrun)

/-- A concrete crash-free run for the C1 witness: submit, dequeue, mark
processing. -/
def c1OkActs : List Act :=
  [Act.submit "a" c1BodyA, Act.dequeue, Act.markProcessing]

/-- The state reached by the crash-free witness run. -/
def c1OkState : SysState := (run initState c1OkActs).getD initState

/-- Witness for the amended C1 on a concrete crash-free run. -/
theorem c1_witness : processingCount c1OkState ≤ 1 :=
  c1_amended_single_processing c1OkState c1OkActs (by decide) (by decide)

/-! ## C8: the timestamp extractor matches its specification -/

theorem digit_not_colon (c : Char) (h : c.isDigit = true) : (c == ':') = false := by
  cases hc : c == ':' with
  | false => rfl
  | true =>
    have hcc : c = ':' := by simpa using hc
    rw [hcc] at h
    exact absurd h (by decide)

theorem take8_cons (x0 x1 x2 x3 x4 x5 x6 x7 : Char) (t : List Char) :
    (x0::x1::x2::x3::x4::x5::x6::x7::t).take 8 = [x0,x1,x2,x3,x4,x5,x6,x7] := rfl

theorem drop8_cons (x0 x1 x2 x3 x4 x5 x6 x7 : Char) (t : List Char) :
    (x0::x1::x2::x3::x4::x5::x6::x7::t).drop 8 = t := rfl

theorem take7_cons (x0 x1 x2 x3 x4 x5 x6 : Char) (t : List Char) :
    (x0::x1::x2::x3::x4::x5::x6::t).take 7 = [x0,x1,x2,x3,x4,x5,x6] := rfl

theorem drop7_cons (x0 x1 x2 x3 x4 x5 x6 : Char) (t : List Char) :
    (x0::x1::x2::x3::x4::x5::x6::t).drop 7 = t := rfl

theorem take5_cons (x0 x1 x2 x3 x4 : Char) (t : List Char) :
    (x0::x1::x2::x3::x4::t).take 5 = [x0,x1,x2,x3,x4] := rfl

theorem drop5_cons (x0 x1 x2 x3 x4 : Char) (t : List Char) :
    (x0::x1::x2::x3::x4::t).drop 5 = t := rfl

theorem take4_cons (x0 x1 x2 x3 : Char) (t : List Char) :
    (x0::x1::x2::x3::t).take 4 = [x0,x1,x2,x3] := rfl

theorem drop4_cons (x0 x1 x2 x3 : Char) (t : List Char) :
    (x0::x1::x2::x3::t).drop 4 = t := rfl

set_option maxHeartbeats 1600000 in
theorem matchTSAt_eq (l : List Char) : matchTSAt l = bestMatch l := by
  rcases l with _ | ⟨x0, _ | ⟨x1, _ | ⟨x2, _ | ⟨x3, _ | ⟨x4, _ | ⟨x5, _ | ⟨x6, _ | ⟨x7, t⟩⟩⟩⟩⟩⟩⟩⟩
  · rfl
  · rfl
  · simp only [matchTSAt, matchFrom, matchColonPair, ite_self]
    rfl
  · simp only [matchTSAt, matchFrom, matchColonPair, ite_self]
    rfl
  · -- length 4
    simp only [matchTSAt, matchFrom, matchColonPair, bestMatch, candOk, boundaryHead,
      take4_cons, drop4_cons, specShape, List.take_of_length_le, List.drop_eq_nil_of_le]
    split_ifs <;> simp_all [digit_not_colon]
  · -- length 5
    simp only [matchTSAt, matchFrom, matchColonPair, bestMatch, candOk, boundaryHead,
      take5_cons, drop5_cons, take4_cons, drop4_cons, specShape,
      List.take_of_length_le, List.drop_eq_nil_of_le]
    split_ifs <;> simp_all [digit_not_colon]
  · -- length 6
    simp only [matchTSAt, matchFrom, matchColonPair, bestMatch, candOk, boundaryHead,
      take5_cons, drop5_cons, take4_cons, drop4_cons, specShape,
      List.take_of_length_le, List.drop_eq_nil_of_le]
    split_ifs <;> simp_all [digit_not_colon]
  · -- length 7
    simp only [matchTSAt, matchFrom, matchColonPair, bestMatch, candOk, boundaryHead,
      take7_cons, drop7_cons, take5_cons, drop5_cons, take4_cons, drop4_cons, specShape,
      List.take_of_length_le, List.drop_eq_nil_of_le]
    split_ifs <;> simp_all [digit_not_colon] <;>
      (try (split_ifs <;> simp_all [digit_not_colon]))
  · -- length 8 or more
    simp only [matchTSAt, matchFrom, matchColonPair, bestMatch, candOk, boundaryHead,
      take8_cons, drop8_cons, take7_cons, drop7_cons, take5_cons, drop5_cons,
      take4_cons, drop4_cons, specShape]
    split_ifs <;> simp_all [digit_not_colon] <;>
      (try (split_ifs <;> simp_all [digit_not_colon]))
/-- A match never starts at a non-digit character. -/
theorem bestMatch_none_of_not_digit (c : Char) (rest : List Char)
    (hc : c.isDigit = false) : bestMatch (c :: rest) = none := by
  rw [← matchTSAt_eq]
  cases rest with
  | nil => rfl
  | cons b bs => simp [matchTSAt, hc]

theorem findTSAux_eq_specScanAux (fuel : Nat) :
    ∀ (prevWord : Bool) (l : List Char),
      findTSAux fuel prevWord l = specScanAux fuel prevWord l := by
  induction fuel with
  | zero => intro prevWord l; rfl
  | succ fuel ih =>
    intro prevWord l
    cases l with
    | nil => rfl
    | cons c rest =>
      cases prevWord with
      | true =>
        simp only [findTSAux, specScanAux]
        simp only [if_true, Bool.not_true, Bool.false_and, Bool.false_eq_true, if_false]
        exact ih (isWordChar c) rest
      | false =>
        cases hc : c.isDigit with
        | true =>
          simp only [findTSAux, specScanAux, Bool.not_false, Bool.true_and, hc, if_true,
            Bool.false_eq_true, if_false]
          rw [← matchTSAt_eq]
          cases hm : matchTSAt (c :: rest) with
          | none => exact ih (isWordChar c) rest
          | some pr =>
            obtain ⟨m, r⟩ := pr
            show m :: findTSAux fuel true r = m :: specScanAux fuel true r
            rw [ih true r]
        | false =>
          simp only [findTSAux, specScanAux, Bool.not_false, Bool.true_and, hc,
            Bool.false_eq_true, if_false]
          rw [bestMatch_none_of_not_digit c rest hc]
          exact ih (isWordChar c) rest

/-- Folding with seconds * 60 + part equals folding with 60 * acc + part. -/
theorem foldl60 (l : List (List Char)) :
    ∀ a : Nat, l.foldl (fun s g => s * 60 + digitsToNat g) a
      = l.foldl (fun s g => 60 * s + digitsToNat g) a := by
  induction l with
  | nil => intro a; rfl
  | cons g gs ih =>
    intro a
    simp only [List.foldl_cons]
    rw [ih, Nat.mul_comm]

/-- The source seconds conversion equals the spec-side base-60 fold. -/
theorem timestampToSeconds_eq_spec (m : List Char) :
    timestampToSeconds (String.mk m) = specSeconds m := by
  unfold timestampToSeconds specSeconds
  rw [show (String.mk m).toList = m from rfl]
  simp only [List.foldl_map]
  exact foldl60 (splitColon m) 0

/-- The source "?" membership test equals the spec-side contains. -/
theorem pyIn_qmark (url : String) : pyIn "?" url = url.toList.contains '?' := by
  unfold pyIn
  rw [show ("?" : String).toList = ['?'] from rfl]
  exact hasSubB_singleton '?' url.toList

/-- C8: the timestamp extractor returns one entry per non-overlapping,
word-bounded match of the H:MM:SS / MM:SS pattern (1-2 digit leading
group, exactly two digits for the later groups, not embedded in a longer
digit run), scanned left to right taking the longest match at each
boundary position, with seconds obtained by folding the colon groups base
60 most significant first, and the empty list when there is no match:
the source-side extractor coincides with the spec-side description for
every text and URL, and 1:23 gives 83, 10:05:30 gives 36330, the
unvalidated 1:99 gives 159. -/
theorem c8_timestamp_extraction_spec :
    (∀ text video_url : String,
        extract_timestamps text video_url = extract_timestamps_spec text video_url)
    ∧ timestampToSeconds "1:23" = 83
    ∧ timestampToSeconds "10:05:30" = 36330
    ∧ timestampToSeconds "1:99" = 159
    ∧ (∀ video_url : String, extract_timestamps "no timestamps here" video_url = []) := by
  refine ⟨?_, by decide, by decide, by decide, fun video_url => rfl⟩
  intro text video_url
  unfold extract_timestamps extract_timestamps_spec timestampFindall
  rw [findTSAux_eq_specScanAux]
  refine List.map_congr_left ?_
  intro m _
  simp only
  rw [timestampToSeconds_eq_spec]
  cases hc : video_url.toList.contains '?' with
  | true =>
    rw [pyIn_qmark, hc]
    simp only [if_true]
    rw [String.append_assoc video_url "&" "t="]
    rw [show ("&" : String) ++ "t=" = "&t=" from rfl]
  | false =>
    rw [pyIn_qmark, hc]
    simp only [Bool.false_eq_true, if_false]
    rw [String.append_assoc video_url "?" "t="]
    rw [show ("?" : String) ++ "t=" = "?t=" from rfl]
